import Mathlib

/-
  Verification development for the streaming relative-error quantiles sketch
  (files compactor.h, relative_error_quantiles_sketch.h and the tests).

  The C++ code is shallowly embedded below.  Conventions:
  * uint64_t counters and sizes become Nat (no arithmetic in the code wraps
    in the regimes considered; where the source would wrap, e.g. the uint64
    subtraction `S = max_buffer_size - elements_to_compact`, the embedding
    returns `none`, modelling the resulting out-of-range accesses).
  * std::vector<T> buffers become List T, push_back is append at the end.
  * The coin oracle RandomBoolean() becomes an outcome sequence
    `coins : Nat → Bool` together with a threaded index of the next outcome
    to consume; a coin is consumed exactly where the source calls
    RandomBoolean(), i.e. once per compaction.
  * `double` weights become Nat.  Every weight the source handles is a
    power of two and every total is a sum of such, all far below 2^53, so
    the double arithmetic on them is exact and Nat is a faithful model.
    The one double *division* (`cum / total >= cq / q` in Quantiles) is
    modelled by the equivalent cross-multiplied integer comparison
    `cq * total ≤ cum * q`; for the integer operands arising in this
    program the two agree (including the `q = 0` and empty-sketch edge
    cases).
  * fallible / undefined behaviour (out-of-range vector indexing,
    underflowing uint64 subtraction feeding an index) becomes Option.
-/

set_option maxRecDepth 20000

namespace StreamingQuantiles

/-- Fuel-bounded helper for the trailing-ones loop of Compactor::Insert
(`while ((c & 1) == 1) { sections_to_compact++; c >>= 1; }`).  The fuel only
serves to make the recursion structural (so that proofs can evaluate it);
`fuel = c` always suffices because the loop halves `c` at every step. -/
def trailingOnesAux : Nat → Nat → Nat
  | 0, _ => 0
  | fuel + 1, c => if c % 2 = 1 then trailingOnesAux fuel (c / 2) + 1 else 0

/-- Number of trailing one-bits of `c`, as computed by the loop in
Compactor::Insert (and by std::countr_one in the second source copy). -/
def trailingOnes (c : Nat) : Nat :=
  trailingOnesAux c c

/-- The stride-2 walk `while (i < max_buffer_size) { output.push_back(buffer[i]); i += 2; }`
collects every second element of the suffix of the buffer starting at `i`. -/
def everySecond : List α → List α
  | [] => []
  | [a] => [a]
  | a :: _ :: rest => a :: everySecond rest

/-- Fuel-bounded ceiling base-2 logarithm; fuel `x` always suffices. -/
def clog2Aux : Nat → Nat → Nat
  | 0, _ => 0
  | fuel + 1, x => if x ≤ 1 then 0 else clog2Aux fuel ((x + 1) / 2) + 1

/-- `⌈log₂ x⌉` for `x ≥ 1`.  The constructor of Compactor computes
`ceil(log(n/k) / log 2)` in double precision; on every parameter set used in
this development (`k ∣ n`, quotients 4, 25 and 64) the double computation is
exact and agrees with this integer version. -/
def clog2 (x : Nat) : Nat :=
  clog2Aux x x

/-- State of `template <typename T> struct Compactor` (compactor.h). -/
structure Compactor (T : Type) where
  n : Nat
  k : Nat
  max_buffer_size : Nat
  C : Nat
  h : Nat
  buffer : List T
deriving Repr, DecidableEq

/-- `Compactor(uint64_t k, uint64_t n, uint64_t h)`: computes
`m = ceil(log2(n / k))` and `max_buffer_size = 2 * k * m`, starts with an
empty buffer and `C = 0`. -/
def Compactor.init (T : Type) (k n h : Nat) : Compactor T :=
  { n := n, k := k, max_buffer_size := 2 * k * clog2 (n / k), C := 0, h := h,
    buffer := [] }

/-- `elements_to_compact = sections_to_compact * k` where
`sections_to_compact` is one plus the number of trailing one-bits of `C`. -/
def elementsToCompact (c : Compactor T) : Nat :=
  (trailingOnes c.C + 1) * c.k

/-- The starting index of the stride-2 selection walk:
`uint64_t i = S; if (!even && i % 2 == 0) { ++i; }` with
`S = max_buffer_size - elements_to_compact`. -/
def compactStart (c : Compactor T) (coin : Bool) : Nat :=
  if coin = false ∧ (c.max_buffer_size - elementsToCompact c) % 2 = 0 then
    c.max_buffer_size - elementsToCompact c + 1
  else
    c.max_buffer_size - elementsToCompact c

/-- The compaction block of Compactor::Insert (the body of the
`if (buffer.size() == max_buffer_size)` branch, before the final push_back),
performed with one coin outcome.  Returns the updated compactor and the
promoted output.

The source partial-sorts the buffer so that its tail holds the largest
elements in ascending order and the remaining prefix holds the rest in
unspecified order; we model this as a full sort, one of the outcomes allowed
by std::partial_sort, and the one all repository tests exercise (every
observable of record in this development depends on the buffer contents only
through their multiset).  `buffer.resize(max_buffer_size - elements_to_compact)`
then keeps exactly the smallest `S` elements, i.e. `take S` of the sorted
buffer, and `++C` advances the schedule.

When `elements_to_compact > max_buffer_size` the source computes
`S = max_buffer_size - elements_to_compact` on uint64, which underflows to
nearly 2^64; the subsequent `buffer.rbegin() + S`, `buffer[i]` and
`buffer.resize(S)` are then out of range — undefined behaviour, modelled as
`none`. -/
def Compactor.compact [LinearOrder T] (c : Compactor T) (coin : Bool) :
    Option (Compactor T × List T) :=
  if elementsToCompact c ≤ c.max_buffer_size then
    some
      ({ c with
          buffer :=
            (c.buffer.insertionSort (· ≤ ·)).take
              (c.max_buffer_size - elementsToCompact c),
          C := c.C + 1 },
        everySecond ((c.buffer.insertionSort (· ≤ ·)).drop (compactStart c coin)))
  else none

/-- `std::vector<T> Compactor::Insert(const T &element)`: if the buffer is
full, compact (consuming one coin outcome), then push the element and return
the promoted output.  `coins idx` is the outcome RandomBoolean() would
produce next; the returned Nat is the index of the next unconsumed outcome. -/
def Compactor.insert [LinearOrder T] (c : Compactor T) (coins : Nat → Bool)
    (idx : Nat) (x : T) : Option (Compactor T × List T × Nat) :=
  if c.buffer.length = c.max_buffer_size then
    match c.compact (coins idx) with
    | none => none
    | some (c', out) =>
        some ({ c' with buffer := c'.buffer ++ [x] }, out, idx + 1)
  else
    some ({ c with buffer := c.buffer ++ [x] }, [], idx)

/-- A sequence of Insert calls on a stand-alone compactor (as in
compactor_test.cpp), discarding the promoted outputs. -/
def Compactor.runInserts [LinearOrder T] :
    Compactor T → List T → (Nat → Bool) → Nat → Option (Compactor T × Nat)
  | c, [], _, idx => some (c, idx)
  | c, x :: xs, coins, idx =>
    match c.insert coins idx x with
    | none => none
    | some (c', _, idx') => Compactor.runInserts c' xs coins idx'

/-- The part of RelativeErrorQuantilesSketch state that Insert touches:
the options `(k, n)`, the deepest level `H_` and the compactor vector.
(Insert never reads or writes `weighted_elements_` / `total_weight_`;
those live in `Sketch` below and are attached by `mkSketch`.) -/
structure SketchCore (T : Type) where
  k : Nat
  n : Nat
  H : Nat
  compactors : List (Compactor T)
deriving Repr, DecidableEq

/-- The sketch constructor: `H_ = 0` and one base compactor
`Compactor(k, n, 0)`. -/
def initCore (T : Type) (k n : Nat) : SketchCore T :=
  { k := k, n := n, H := 0, compactors := [Compactor.init T k n 0] }

/-- The level-creation preamble of RelativeErrorQuantilesSketch::Insert:
`if (H_ < h) { H_ = h; compactors_.push_back(Compactor(k, n, h)); }`.
Faithful to the source, it appends a single compactor and sets `H_ = h`
even when `h > H_ + 1`. -/
def ensureLevel (sk : SketchCore T) (h : Nat) : SketchCore T :=
  if sk.H < h then
    { sk with H := h, compactors := sk.compactors ++ [Compactor.init T sk.k sk.n h] }
  else sk

/-- `RelativeErrorQuantilesSketch::Insert(element, h)` together with its
recursive propagation of promoted items, expressed with an explicit
depth-first worklist: the entry `(x, h)` inserts `x` at level `h`; the
promoted output of level `h` is prepended as entries at level `h + 1`,
exactly the order in which the recursive `Insert(t, h + 1)` calls of the
source run.  One unit of fuel is spent per elementary Insert; the source
recursion needs no fuel, so callers pass any sufficiently large amount and
claims are conditioned on the run succeeding.

After the level-creation preamble the source indexes `compactors_[h]`
without a bounds check; when `h` exceeds the vector length (which happens
exactly when Insert is called with `h > H_ + 1`) that access is out of
bounds (UB), modelled by `none` via the `getElem?` lookup. -/
def step [LinearOrder T] :
    Nat → SketchCore T → List (T × Nat) → (Nat → Bool) → Nat →
      Option (SketchCore T × Nat)
  | _, sk, [], _, idx => some (sk, idx)
  | 0, _, _ :: _, _, _ => none
  | fuel + 1, sk, (x, h) :: rest, coins, idx =>
    match (ensureLevel sk h).compactors[h]? with
    | none => none
    | some c =>
      match c.insert coins idx x with
      | none => none
      | some (c', out, idx') =>
        step fuel { ensureLevel sk h with compactors := (ensureLevel sk h).compactors.set h c' }
          (out.map (fun t => (t, h + 1)) ++ rest) coins idx'

/-- Full sketch state: the insert-facing core plus the query-facing fields
`weighted_elements_` and `total_weight_` of RelativeErrorQuantilesSketch. -/
structure Sketch (T : Type) extends SketchCore T where
  weightedElements : List (T × Nat)
  totalWeight : Nat

/-- A sketch as constructed (and as left by any number of Insert calls,
which touch only the core): `weighted_elements_` empty, `total_weight_ = 0`. -/
def mkSketch (core : SketchCore T) : Sketch T :=
  { toSketchCore := core, weightedElements := [], totalWeight := 0 }

/-- The weighted linearisation built by Close: level `h` contributes its
buffer elements with weight `2^h` (`std::pow(2, h)`, exact in double for all
reachable `h`), level by level in hierarchy order. -/
def weightedOf : Nat → List (Compactor T) → List (T × Nat)
  | _, [] => []
  | i, c :: rest =>
    c.buffer.map (fun t => (t, 2 ^ i)) ++ weightedOf (i + 1) rest

/-- `RelativeErrorQuantilesSketch::Close`: build the weighted elements, sort
them by item (std::sort with comparator `w1.item < w2.item`; the model uses
a stable insertion sort, one outcome the unstable std::sort may produce —
all facts proved below depend only on the item multiset), and accumulate
the total weight. -/
def Sketch.close [LinearOrder T] (sk : Sketch T) : Sketch T :=
  { sk with
    weightedElements :=
      (weightedOf 0 sk.compactors).insertionSort (fun p q => p.1 ≤ q.1),
    totalWeight :=
      (((weightedOf 0 sk.compactors).insertionSort
          (fun p q => p.1 ≤ q.1)).map (fun p => p.2)).sum }

/-- `EstimateRank(item)`: lower_bound on the item-sorted weighted list and
sum of the weights strictly before it.  On a list sorted by item the prefix
strictly before the lower bound is exactly the maximal prefix of items less
than the query. -/
def Sketch.estimateRank [LinearOrder T] (sk : Sketch T) (x : T) : Nat :=
  ((sk.weightedElements.takeWhile (fun p => decide (p.1 < x))).map
      (fun p => p.2)).sum

/-- The accumulation loop of `Quantiles(int n)`: walk the weighted elements,
keep a running weight `cum`, and emit `(current_quantile, item, cum)`
whenever `cum / total ≥ current_quantile / q` (the double comparison,
written as the equivalent integer comparison `cq * total ≤ cum * q`). -/
def quantilesAux : List (T × Nat) → Nat → Nat → Nat → Nat → List (Nat × T × Nat)
  | [], _, _, _, _ => []
  | (t, w) :: rest, total, cq, cum, q =>
    if cq * total ≤ (cum + w) * q then
      (cq, t, cum + w) :: quantilesAux rest total (cq + 1) (cum + w) q
    else
      quantilesAux rest total cq (cum + w) q

/-- `RelativeErrorQuantilesSketch::Quantiles(int n)` (the argument renamed
`q` here to avoid clashing with the options field `n`). -/
def Sketch.quantiles [LinearOrder T] (sk : Sketch T) (q : Nat) :
    List (Nat × T × Nat) :=
  quantilesAux sk.weightedElements sk.totalWeight 1 0 q

/-- Total weight currently represented by a compactor list whose first
element sits at level `i`: level `i + j` contributes `2^(i+j)` per buffered
item.  (`Wq 0 sk.compactors` is the sketch's represented weight.) -/
def Wq : Nat → List (Compactor T) → Nat
  | _, [] => 0
  | i, c :: rest => 2 ^ i * c.buffer.length + Wq (i + 1) rest

/-- Invariant carried through sketch runs: every compactor was built with
the sketch's section size and respects its buffer bound. -/
def SkInv (sk : SketchCore T) : Prop :=
  ∀ c ∈ sk.compactors, c.k = sk.k ∧ c.buffer.length ≤ c.max_buffer_size

theorem everySecond_length : ∀ l : List α, (everySecond l).length = (l.length + 1) / 2
  | [] => by simp [everySecond]
  | [_] => by simp [everySecond]
  | _ :: _ :: rest => by
    have ih := everySecond_length rest
    simp only [everySecond, List.length_cons]
    omega

theorem trailingOnesAux_spec : ∀ (fuel c : Nat), c < 2 ^ fuel →
    2 ^ trailingOnesAux fuel c ∣ c + 1 ∧ ¬2 ^ (trailingOnesAux fuel c + 1) ∣ c + 1
  | 0, c, hlt => by
    have hc : c = 0 := by simpa using hlt
    subst hc
    exact ⟨one_dvd _, by decide⟩
  | fuel + 1, c, hlt => by
    by_cases hodd : c % 2 = 1
    · have hlt2 : c / 2 < 2 ^ fuel := by
        have hp : 2 ^ (fuel + 1) = 2 ^ fuel * 2 := pow_succ 2 fuel
        omega
      obtain ⟨hdvd, hnot⟩ := trailingOnesAux_spec fuel (c / 2) hlt2
      simp only [trailingOnesAux, if_pos hodd]
      have hc1 : c + 1 = 2 * (c / 2 + 1) := by omega
      constructor
      · rw [hc1, pow_succ, mul_comm (2 ^ trailingOnesAux fuel (c / 2)) 2]
        exact Nat.mul_dvd_mul_left 2 hdvd
      · intro hbad
        rw [hc1, pow_succ, mul_comm (2 ^ (trailingOnesAux fuel (c / 2) + 1)) 2] at hbad
        exact hnot ((Nat.mul_dvd_mul_iff_left (by omega : 0 < 2)).mp hbad)
    · simp only [trailingOnesAux, if_neg hodd]
      refine ⟨one_dvd _, fun hbad => ?_⟩
      obtain ⟨m, hm⟩ := hbad
      omega

/-- The loop of Compactor::Insert indeed computes the number of trailing
one-bits of `C`: it produces the unique `t` with `2^t ∣ C + 1` and
`2^(t+1) ∤ C + 1`. -/
theorem trailingOnes_spec (c : Nat) :
    2 ^ trailingOnes c ∣ c + 1 ∧ ¬2 ^ (trailingOnes c + 1) ∣ c + 1 :=
  trailingOnesAux_spec c c (Nat.lt_two_pow c)

theorem elementsToCompact_even {T : Type} (c : Compactor T) (hk : c.k % 2 = 0) :
    elementsToCompact c % 2 = 0 := by
  simp [elementsToCompact, Nat.mul_mod, hk]

theorem elementsToCompact_pos {T : Type} (c : Compactor T) (hk : 0 < c.k) :
    0 < elementsToCompact c := by
  have h1 : 1 * c.k ≤ (trailingOnes c.C + 1) * c.k :=
    Nat.mul_le_mul_right _ (by omega)
  simp only [elementsToCompact]
  omega

theorem Compactor.compact_spec [LinearOrder T] (c : Compactor T) (coin : Bool)
    (c' : Compactor T) (out : List T)
    (hfull : c.buffer.length = c.max_buffer_size)
    (h : c.compact coin = some (c', out)) :
    elementsToCompact c ≤ c.max_buffer_size
    ∧ c'.k = c.k ∧ c'.n = c.n ∧ c'.h = c.h
    ∧ c'.max_buffer_size = c.max_buffer_size
    ∧ c'.C = c.C + 1
    ∧ c'.buffer.length = c.max_buffer_size - elementsToCompact c
    ∧ (c.k % 2 = 0 → 2 * out.length = elementsToCompact c) := by
  unfold Compactor.compact at h
  split at h
  case isFalse hle => exact absurd h (by simp)
  case isTrue hle =>
    simp only [Option.some.injEq, Prod.mk.injEq] at h
    obtain ⟨hc', hout⟩ := h
    subst hc'
    subst hout
    have hsortlen :
        (c.buffer.insertionSort (· ≤ ·)).length = c.max_buffer_size := by
      rw [List.length_insertionSort, hfull]
    refine ⟨hle, rfl, rfl, rfl, rfl, rfl, ?_, ?_⟩
    · simp only [List.length_take, hsortlen]
      omega
    · intro hk
      have heven := elementsToCompact_even c hk
      have hdroplen :
          ((c.buffer.insertionSort (· ≤ ·)).drop (compactStart c coin)).length
            = c.max_buffer_size - compactStart c coin := by
        rw [List.length_drop, hsortlen]
      rw [everySecond_length, hdroplen]
      unfold compactStart
      split
      case isTrue hcond => omega
      case isFalse hcond => omega

theorem Compactor.insert_spec [LinearOrder T] (c : Compactor T)
    (coins : Nat → Bool) (idx : Nat) (x : T) (c' : Compactor T) (out : List T)
    (idx' : Nat)
    (h : c.insert coins idx x = some (c', out, idx')) :
    c'.k = c.k ∧ c'.n = c.n ∧ c'.h = c.h
    ∧ c'.max_buffer_size = c.max_buffer_size
    ∧ (c.buffer.length = c.max_buffer_size →
        elementsToCompact c ≤ c.max_buffer_size
        ∧ c'.C = c.C + 1
        ∧ c'.buffer.length = c.max_buffer_size - elementsToCompact c + 1
        ∧ (c.k % 2 = 0 → 2 * out.length = elementsToCompact c))
    ∧ (c.buffer.length ≠ c.max_buffer_size →
        c'.C = c.C ∧ c'.buffer.length = c.buffer.length + 1 ∧ out = []) := by
  unfold Compactor.insert at h
  split at h
  case isTrue hfull =>
    cases hcp : c.compact (coins idx) with
    | none => rw [hcp] at h; exact absurd h (by simp)
    | some p =>
      obtain ⟨cc, oo⟩ := p
      rw [hcp] at h
      simp only [Option.some.injEq, Prod.mk.injEq] at h
      obtain ⟨hc', hout, hidx⟩ := h
      obtain ⟨h1, h2, h3, h4, h5, h6, h7, h8⟩ :=
        Compactor.compact_spec c (coins idx) cc oo hfull hcp
      subst hc'
      subst hout
      refine ⟨h2, h3, h4, h5, fun _ => ⟨h1, h6, ?_, h8⟩, fun hne => absurd hfull hne⟩
      simp [h7]
  case isFalse hne =>
    simp only [Option.some.injEq, Prod.mk.injEq] at h
    obtain ⟨hc', hout, hidx⟩ := h
    subst hc'
    refine ⟨rfl, rfl, rfl, rfl, fun hf => absurd hf hne, fun _ => ⟨rfl, by simp, hout.symm⟩⟩

/-- A successful Insert from a state within the buffer bound stays within
the buffer bound (with equality reachable: a non-compacting Insert from
`max_buffer_size - 1` fills the buffer entirely). -/
theorem Compactor.insert_len_le [LinearOrder T] (c : Compactor T)
    (coins : Nat → Bool) (idx : Nat) (x : T) (c' : Compactor T) (out : List T)
    (idx' : Nat)
    (hk : 0 < c.k) (hle : c.buffer.length ≤ c.max_buffer_size)
    (h : c.insert coins idx x = some (c', out, idx')) :
    c'.buffer.length ≤ c'.max_buffer_size := by
  obtain ⟨-, -, -, hmax, hfull, hnot⟩ :=
    Compactor.insert_spec c coins idx x c' out idx' h
  have hpos := elementsToCompact_pos c hk
  by_cases hf : c.buffer.length = c.max_buffer_size
  · obtain ⟨hcap, -, hlen, -⟩ := hfull hf
    omega
  · obtain ⟨-, hlen, -⟩ := hnot hf
    omega

/-- Weight bookkeeping of one Insert: with `k` even, the new buffer plus
twice the promoted output account for exactly the old buffer plus the newly
pushed element. -/
theorem Compactor.insert_len_id [LinearOrder T] (c : Compactor T)
    (coins : Nat → Bool) (idx : Nat) (x : T) (c' : Compactor T) (out : List T)
    (idx' : Nat)
    (hk : c.k % 2 = 0)
    (h : c.insert coins idx x = some (c', out, idx')) :
    c'.buffer.length + 2 * out.length = c.buffer.length + 1 := by
  obtain ⟨-, -, -, -, hfull, hnot⟩ :=
    Compactor.insert_spec c coins idx x c' out idx' h
  by_cases hf : c.buffer.length = c.max_buffer_size
  · obtain ⟨hcap, -, hlen, hout⟩ := hfull hf
    have := hout hk
    omega
  · obtain ⟨-, hlen, hout⟩ := hnot hf
    subst hout
    simp
    omega

theorem Compactor.runInserts_inv [LinearOrder T] :
    ∀ (items : List T) (c : Compactor T) (coins : Nat → Bool) (idx : Nat)
      (r : Compactor T × Nat),
      0 < c.k → c.buffer.length ≤ c.max_buffer_size →
      Compactor.runInserts c items coins idx = some r →
      0 < r.1.k ∧ r.1.buffer.length ≤ r.1.max_buffer_size
  | [], c, coins, idx, r, hk, hle, h => by
    simp only [Compactor.runInserts, Option.some.injEq] at h
    rw [← h]
    exact ⟨hk, hle⟩
  | x :: xs, c, coins, idx, r, hk, hle, h => by
    simp only [Compactor.runInserts] at h
    cases hins : c.insert coins idx x with
    | none => rw [hins] at h; exact absurd h (by simp)
    | some p =>
      obtain ⟨c', out, idx'⟩ := p
      rw [hins] at h
      have hk' : 0 < c'.k := by
        have := (Compactor.insert_spec c coins idx x c' out idx' hins).1
        omega
      exact Compactor.runInserts_inv xs c' coins idx' r hk'
        (Compactor.insert_len_le c coins idx x c' out idx' hk hle hins) h

theorem Wq_append {T : Type} : ∀ (l : List (Compactor T)) (i : Nat) (c : Compactor T),
    Wq i (l ++ [c]) = Wq i l + 2 ^ (i + l.length) * c.buffer.length
  | [], i, c => by simp [Wq]
  | d :: rest, i, c => by
    have ih := Wq_append rest (i + 1) c
    show 2 ^ i * d.buffer.length + Wq (i + 1) (rest ++ [c])
        = 2 ^ i * d.buffer.length + Wq (i + 1) rest
          + 2 ^ (i + (rest.length + 1)) * c.buffer.length
    rw [ih]
    have he : i + (rest.length + 1) = (i + 1) + rest.length := by omega
    rw [he]
    ring

theorem Wq_set {T : Type} : ∀ (l : List (Compactor T)) (i pos : Nat) (c c' : Compactor T),
    l[pos]? = some c →
    Wq i (l.set pos c') + 2 ^ (i + pos) * c.buffer.length
      = Wq i l + 2 ^ (i + pos) * c'.buffer.length
  | [], _, _, _, _, h => by simp at h
  | d :: rest, i, 0, c, c', h => by
    simp only [List.getElem?_cons_zero, Option.some.injEq] at h
    subst h
    show 2 ^ i * c'.buffer.length + Wq (i + 1) rest + 2 ^ (i + 0) * d.buffer.length
        = 2 ^ i * d.buffer.length + Wq (i + 1) rest + 2 ^ (i + 0) * c'.buffer.length
    ring
  | d :: rest, i, pos + 1, c, c', h => by
    simp only [List.getElem?_cons_succ] at h
    have ih := Wq_set rest (i + 1) pos c c' h
    show 2 ^ i * d.buffer.length + Wq (i + 1) (rest.set pos c')
          + 2 ^ (i + (pos + 1)) * c.buffer.length
        = 2 ^ i * d.buffer.length + Wq (i + 1) rest
          + 2 ^ (i + (pos + 1)) * c'.buffer.length
    have he : i + (pos + 1) = (i + 1) + pos := by omega
    rw [he]
    linarith [ih]

theorem sum_map_const (l : List α) (w : Nat) :
    (l.map (fun _ => w)).sum = l.length * w := by
  induction l with
  | nil => simp
  | cons a t ih => simp [ih]; ring

theorem sum_snd_weightedOf {T : Type} : ∀ (i : Nat) (l : List (Compactor T)),
    ((weightedOf i l).map (fun p => p.2)).sum = Wq i l
  | _, [] => by simp [weightedOf, Wq]
  | i, c :: rest => by
    simp only [weightedOf, List.map_append, List.sum_append,
      sum_snd_weightedOf (i + 1) rest, Wq, List.map_map]
    congr 1
    have hcomp :
        ((fun p : T × Nat => p.2) ∘ fun t => (t, 2 ^ i)) = fun _ => 2 ^ i := rfl
    rw [hcomp, sum_map_const]
    ring

/-- The total weight produced by Close is exactly the weight represented by
the compactor hierarchy (sorting only permutes the weighted elements). -/
theorem close_totalWeight {T : Type} [LinearOrder T] (core : SketchCore T) :
    (Sketch.close (mkSketch core)).totalWeight = Wq 0 core.compactors := by
  show (((weightedOf 0 core.compactors).insertionSort
      (fun p q => p.1 ≤ q.1)).map (fun p => p.2)).sum = Wq 0 core.compactors
  exact (((List.perm_insertionSort (fun p q : T × Nat => p.1 ≤ q.1)
      (weightedOf 0 core.compactors)).map (fun p => p.2)).sum_eq).trans
    (sum_snd_weightedOf 0 core.compactors)

theorem ensureLevel_k {T : Type} (sk : SketchCore T) (h : Nat) :
    (ensureLevel sk h).k = sk.k := by
  unfold ensureLevel; split <;> rfl

theorem ensureLevel_compactors {T : Type} (sk : SketchCore T) (h : Nat) :
    (ensureLevel sk h).compactors =
      if sk.H < h then sk.compactors ++ [Compactor.init T sk.k sk.n h]
      else sk.compactors := by
  unfold ensureLevel; split <;> rfl

theorem ensureLevel_inv {T : Type} (sk : SketchCore T) (h : Nat)
    (hinv : SkInv sk) : SkInv (ensureLevel sk h) := by
  intro c hc
  rw [ensureLevel_k]
  rw [ensureLevel_compactors] at hc
  split at hc
  · simp only [List.mem_append, List.mem_singleton] at hc
    rcases hc with hc | rfl
    · exact hinv c hc
    · exact ⟨rfl, by simp [Compactor.init]⟩
  · exact hinv c hc

theorem ensureLevel_Wq {T : Type} (sk : SketchCore T) (h : Nat) :
    Wq 0 (ensureLevel sk h).compactors = Wq 0 sk.compactors := by
  rw [ensureLevel_compactors]
  split
  · rw [Wq_append]; simp [Compactor.init]
  · rfl

theorem initCore_inv {T : Type} (k n : Nat) : SkInv (initCore T k n) := by
  intro c hc
  simp only [initCore, List.mem_singleton] at hc
  subst hc
  exact ⟨rfl, by simp [Compactor.init]⟩

theorem initCore_Wq {T : Type} (k n : Nat) :
    Wq 0 (initCore T k n).compactors = 0 := by
  simp [initCore, Wq, Compactor.init]

/-- Main preservation lemma for sketch runs: a successful `step` run keeps
the per-compactor invariants and adds, to the represented weight, exactly
`2^h` for every worklist entry at level `h` — each Insert conserves weight
because, with `k` even, a compaction replaces `elements_to_compact` items of
weight `2^h` by half as many items of weight `2^(h+1)`. -/
theorem step_invariant {T : Type} [LinearOrder T] :
    ∀ (fuel : Nat) (sk : SketchCore T) (wl : List (T × Nat))
      (coins : Nat → Bool) (idx : Nat) (r : SketchCore T × Nat),
      0 < sk.k → sk.k % 2 = 0 → SkInv sk →
      step fuel sk wl coins idx = some r →
      SkInv r.1 ∧ r.1.k = sk.k
        ∧ Wq 0 r.1.compactors
            = Wq 0 sk.compactors + (wl.map (fun p => 2 ^ p.2)).sum
  | fuel, sk, [], coins, idx, r, hk, hke, hinv, h => by
    obtain rfl : (sk, idx) = r := by simpa [step] using h
    exact ⟨hinv, rfl, by simp⟩
  | 0, sk, (x, h0) :: rest, coins, idx, r, hk, hke, hinv, h => by
    simp [step] at h
  | fuel + 1, sk, (x, h0) :: rest, coins, idx, r, hk, hke, hinv, hstep => by
    simp only [step] at hstep
    split at hstep
    · simp at hstep
    · rename_i c hget
      split at hstep
      · simp at hstep
      · rename_i c' out idx' hins
        have hinv1 : SkInv (ensureLevel sk h0) := ensureLevel_inv sk h0 hinv
        have hk1 : (ensureLevel sk h0).k = sk.k := ensureLevel_k sk h0
        have hcmem : c ∈ (ensureLevel sk h0).compactors := List.getElem?_mem hget
        obtain ⟨hck, hclen⟩ := hinv1 c hcmem
        have hckpos : 0 < c.k := by rw [hck, hk1]; exact hk
        have hcke : c.k % 2 = 0 := by rw [hck, hk1]; exact hke
        have hlenid := Compactor.insert_len_id c coins idx x c' out idx' hcke hins
        have hlenle := Compactor.insert_len_le c coins idx x c' out idx' hckpos hclen hins
        have hc'k : c'.k = c.k :=
          (Compactor.insert_spec c coins idx x c' out idx' hins).1
        have hinv2 :
            SkInv { ensureLevel sk h0 with
              compactors := (ensureLevel sk h0).compactors.set h0 c' } := by
          intro d hd
          rcases List.mem_or_eq_of_mem_set hd with hd' | rfl
          · exact hinv1 d hd'
          · exact ⟨hc'k.trans hck, hlenle⟩
        obtain ⟨hri, hrk, hrW⟩ :=
          step_invariant fuel
            { ensureLevel sk h0 with
                compactors := (ensureLevel sk h0).compactors.set h0 c' }
            (out.map (fun t => (t, h0 + 1)) ++ rest) coins idx' r
            (show (0 : Nat) < (ensureLevel sk h0).k by rw [hk1]; exact hk)
            (show (ensureLevel sk h0).k % 2 = 0 by rw [hk1]; exact hke)
            hinv2 hstep
        dsimp only at hrk hrW
        refine ⟨hri, hrk.trans hk1, ?_⟩
        rw [hrW]
        simp only [List.map_append, List.sum_append, List.map_cons, List.sum_cons]
        have hout :
            ((out.map (fun t => (t, h0 + 1))).map (fun p : T × Nat => 2 ^ p.2)).sum
              = out.length * 2 ^ (h0 + 1) := by
          rw [List.map_map]
          exact sum_map_const out (2 ^ (h0 + 1))
        rw [hout]
        have hWset := Wq_set (ensureLevel sk h0).compactors 0 h0 c c' hget
        rw [Nat.zero_add] at hWset
        have hWe := ensureLevel_Wq sk h0
        have h2 :
            Wq 0 ((ensureLevel sk h0).compactors.set h0 c')
                + 2 ^ h0 * c.buffer.length
              = Wq 0 sk.compactors + 2 ^ h0 * c'.buffer.length := by
          rw [hWset, hWe]
        have hbig :
            (Wq 0 ((ensureLevel sk h0).compactors.set h0 c')
                + out.length * 2 ^ (h0 + 1)) + 2 ^ h0 * c.buffer.length
              = (Wq 0 sk.compactors + 2 ^ h0) + 2 ^ h0 * c.buffer.length := by
          calc (Wq 0 ((ensureLevel sk h0).compactors.set h0 c')
                  + out.length * 2 ^ (h0 + 1)) + 2 ^ h0 * c.buffer.length
              = (Wq 0 ((ensureLevel sk h0).compactors.set h0 c')
                  + 2 ^ h0 * c.buffer.length) + out.length * 2 ^ (h0 + 1) := by
                ring
            _ = (Wq 0 sk.compactors + 2 ^ h0 * c'.buffer.length)
                  + out.length * 2 ^ (h0 + 1) := by rw [h2]
            _ = Wq 0 sk.compactors
                  + 2 ^ h0 * (c'.buffer.length + 2 * out.length) := by
                rw [pow_succ]; ring
            _ = Wq 0 sk.compactors + 2 ^ h0 * (c.buffer.length + 1) := by
                rw [hlenid]
            _ = (Wq 0 sk.compactors + 2 ^ h0) + 2 ^ h0 * c.buffer.length := by
                ring
        have key := Nat.add_right_cancel hbig
        linarith [key]

/-- C1: for every sequence of items inserted at level 0 into a sketch with
valid parameters (`k` positive and even, `n ≥ k`) and every outcome sequence
of the coin oracle, if the whole run succeeds (in particular the compaction
schedule never prescribes more than `max_buffer_size` elements, which would
be UB), then after Close the total weight equals the number of inserted
items exactly. -/
theorem weight_conservation {T : Type} [LinearOrder T] (k n fuel : Nat)
    (items : List T) (coins : Nat → Bool) (r : SketchCore T × Nat)
    (hk : 0 < k) (hke : k % 2 = 0) (hkn : k ≤ n)
    (hrun : step fuel (initCore T k n) (items.map (fun x => (x, 0))) coins 0
      = some r) :
    (Sketch.close (mkSketch r.1)).totalWeight = items.length := by
  obtain ⟨-, -, hW⟩ :=
    step_invariant fuel (initCore T k n) (items.map (fun x => (x, 0))) coins 0 r
      hk hke (initCore_inv k n) hrun
  rw [close_totalWeight, hW, initCore_Wq, Nat.zero_add, List.map_map]
  have h1 : (items.map ((fun p : T × Nat => 2 ^ p.2) ∘ fun x => (x, (0 : Nat)))).sum
      = (items.map (fun _ => 1)).sum := rfl
  rw [h1, sum_map_const, Nat.mul_one]

theorem weight_conservation_witness :
    (Sketch.close (mkSketch ((step 9 (initCore ℕ 2 8)
        ([0, 1, 2].map (fun x => (x, 0))) (fun _ => false) 0).getD
          (initCore ℕ 2 8, 0)).1)).totalWeight = [0, 1, 2].length :=
  weight_conservation 2 8 9 [0, 1, 2] (fun _ => false) _
    (by decide) (by decide) (by decide) rfl

/-- C2: every state reachable by constructing a compactor (resp. a sketch)
with valid parameters and performing any successful sequence of Insert
calls has every buffer length at most `max_buffer_size`. -/
theorem buffer_bound {T : Type} [LinearOrder T] (k n h0 fuel idx0 idx1 : Nat)
    (items : List T) (calls : List (T × Nat)) (coins coins2 : Nat → Bool)
    (rc : Compactor T × Nat) (rs : SketchCore T × Nat)
    (hk : 0 < k) (hke : k % 2 = 0)
    (h1 : Compactor.runInserts (Compactor.init T k n h0) items coins idx0
      = some rc)
    (h2 : step fuel (initCore T k n) calls coins2 idx1 = some rs) :
    rc.1.buffer.length ≤ rc.1.max_buffer_size
    ∧ ∀ c ∈ rs.1.compactors, c.buffer.length ≤ c.max_buffer_size := by
  constructor
  · exact (Compactor.runInserts_inv items (Compactor.init T k n h0) coins idx0 rc
      hk (by simp [Compactor.init]) h1).2
  · intro c hc
    obtain ⟨hinv, -, -⟩ :=
      step_invariant fuel (initCore T k n) calls coins2 idx1 rs hk hke
        (initCore_inv k n) h2
    exact (hinv c hc).2

theorem buffer_bound_witness :
    ((Compactor.runInserts (Compactor.init ℕ 2 8 0) [1, 2, 3] (fun _ => false) 0).getD
        (Compactor.init ℕ 2 8 0, 0)).1.buffer.length
      ≤ ((Compactor.runInserts (Compactor.init ℕ 2 8 0) [1, 2, 3] (fun _ => false) 0).getD
        (Compactor.init ℕ 2 8 0, 0)).1.max_buffer_size
    ∧ ∀ c ∈ ((step 3 (initCore ℕ 2 8) [(4, 0)] (fun _ => false) 0).getD
        (initCore ℕ 2 8, 0)).1.compactors, c.buffer.length ≤ c.max_buffer_size :=
  buffer_bound 2 8 0 3 0 0 [1, 2, 3] [(4, 0)] (fun _ => false) (fun _ => false) _ _
    (by decide) (by decide) rfl rfl

/-- C3: the schedule counter starts at 0 (constructor), never decreases,
is incremented by exactly 1 per compaction and only then; and the number of
sections a triggered compaction uses is one plus the number of trailing
one-bits of `C` at that moment (`trailingOnes` is pinned down as the exact
2-adic valuation of `C + 1`, i.e. the mathematical trailing-ones count). -/
theorem schedule_counter {T : Type} [LinearOrder T] (k0 n0 hh : Nat)
    (c : Compactor T) (coins : Nat → Bool) (idx : Nat) (x : T)
    (c' : Compactor T) (out : List T) (idx' : Nat)
    (hins : c.insert coins idx x = some (c', out, idx')) :
    (Compactor.init T k0 n0 hh).C = 0
    ∧ c.C ≤ c'.C
    ∧ (c.buffer.length = c.max_buffer_size →
        c'.C = c.C + 1
        ∧ c'.buffer.length + elementsToCompact c = c.max_buffer_size + 1
        ∧ elementsToCompact c = (trailingOnes c.C + 1) * c.k)
    ∧ (c.buffer.length ≠ c.max_buffer_size → c'.C = c.C)
    ∧ 2 ^ trailingOnes c.C ∣ c.C + 1 ∧ ¬2 ^ (trailingOnes c.C + 1) ∣ c.C + 1 := by
  obtain ⟨-, -, -, -, hfull, hnot⟩ :=
    Compactor.insert_spec c coins idx x c' out idx' hins
  obtain ⟨hd1, hd2⟩ := trailingOnes_spec c.C
  refine ⟨rfl, ?_, ?_, fun hne => (hnot hne).1, hd1, hd2⟩
  · by_cases hf : c.buffer.length = c.max_buffer_size
    · have := (hfull hf).2.1; omega
    · have := (hnot hf).1; omega
  · intro hf
    obtain ⟨hcap, hC, hlen, -⟩ := hfull hf
    exact ⟨hC, by omega, rfl⟩

theorem schedule_counter_witness :
    2 ^ trailingOnes 6 ∣ 6 + 1 ∧ ¬2 ^ (trailingOnes 6 + 1) ∣ 6 + 1 :=
  (schedule_counter 16 1024 0
    { n := 8, k := 2, max_buffer_size := 8, C := 6, h := 0,
      buffer := ([] : List ℕ) }
    (fun _ => false) 0 1
    { n := 8, k := 2, max_buffer_size := 8, C := 6, h := 0, buffer := [1] }
    [] 0 rfl).2.2.2.2

/-- C4: the implementation does NOT cap `elements_to_compact` at
`max_buffer_size`.  The schedule overflow is reachable: on a compactor with
`k = 2, n = 8` (`max_buffer_size = 8`), after 60 inserts the buffer is full
with `C = 15`, so the 61st insert computes `elements_to_compact = 10 > 8`;
the source then computes `S = max_buffer_size - elements_to_compact`, which
underflows on uint64 and feeds out-of-range accesses (modelled as `none`). -/
theorem schedule_overflow_uncapped :
    (Compactor.init ℕ 2 8 0).max_buffer_size = 8
    ∧ (Compactor.runInserts (Compactor.init ℕ 2 8 0) (List.range 60)
        (fun _ => false) 0).map
        (fun p => (p.1.C, p.1.buffer.length, elementsToCompact p.1))
      = some (15, 8, 10)
    ∧ Compactor.runInserts (Compactor.init ℕ 2 8 0) (List.range 61)
        (fun _ => false) 0 = none :=
  ⟨rfl, rfl, rfl⟩

/-- C5 counterexample: after the eighth Insert into a fresh `k = 2, n = 8`
compactor returns, the buffer length equals `max_buffer_size` (both are 8),
so "strictly less than `max_buffer_size` immediately after any Insert
returns" is false (the repository's own CompactorTest.Compaction asserts
this size of 8). -/
theorem insert_buffer_lt_refuted :
    (Compactor.runInserts (Compactor.init ℕ 2 8 0) (List.range 8)
        (fun _ => false) 0).map
        (fun p => (p.1.buffer.length, p.1.max_buffer_size)) = some (8, 8)
    ∧ ¬(8 : Nat) < 8 :=
  ⟨rfl, by omega⟩

/-- C5 (amended): immediately after any successful Insert (from a state
within the bound, with `k` positive), the buffer length is at most
`max_buffer_size` — equality is reachable, so `≤` cannot be improved
to `<`. -/
theorem insert_buffer_le_after {T : Type} [LinearOrder T] (c : Compactor T)
    (coins : Nat → Bool) (idx : Nat) (x : T) (c' : Compactor T) (out : List T)
    (idx' : Nat) (hk : 0 < c.k) (hle : c.buffer.length ≤ c.max_buffer_size)
    (hins : c.insert coins idx x = some (c', out, idx')) :
    c'.buffer.length ≤ c'.max_buffer_size :=
  Compactor.insert_len_le c coins idx x c' out idx' hk hle hins

theorem insert_buffer_le_after_witness :
    ({ n := 8, k := 2, max_buffer_size := 8, C := 0, h := 0,
        buffer := [5] } : Compactor ℕ).buffer.length
      ≤ ({ n := 8, k := 2, max_buffer_size := 8, C := 0, h := 0,
            buffer := [5] } : Compactor ℕ).max_buffer_size :=
  insert_buffer_le_after (Compactor.init ℕ 2 8 0) (fun _ => false) 0 5
    { n := 8, k := 2, max_buffer_size := 8, C := 0, h := 0, buffer := [5] } [] 0
    (by decide) (by decide) rfl

/-- C6 counterexample: Insert at level 2 on a fresh sketch (`H = 0`) does
not signal a recoverable error; the code sets `H = 2` but appends only one
compactor, so the subsequent unchecked `compactors_[2]` access is out of
bounds — undefined behaviour, modelled as `none`. -/
theorem level_gap_refuted :
    step 5 (initCore ℕ 2 8) [(7, 2)] (fun _ => false) 0 = none := rfl

/-- C6 (amended): Insert with `h > H + 1` signals no recoverable error.
In every state satisfying the density invariant
`compactors.length = H + 1`, such an Insert sets `H = h`, appends a single
compactor (making the length `H + 2 < h + 1`, breaking the invariant), and
then performs the out-of-bounds `compactors_[h]` access (UB, modelled as
failure of the run). -/
theorem level_gap_no_error {T : Type} [LinearOrder T] (fuel : Nat)
    (sk : SketchCore T) (x : T) (h : Nat) (rest : List (T × Nat))
    (coins : Nat → Bool) (idx : Nat)
    (hlen : sk.compactors.length = sk.H + 1) (hgap : sk.H + 1 < h) :
    step fuel sk ((x, h) :: rest) coins idx = none := by
  cases fuel with
  | zero => simp [step]
  | succ fuel =>
    simp only [step]
    have hnone : (ensureLevel sk h).compactors[h]? = none := by
      apply List.getElem?_eq_none
      rw [ensureLevel_compactors, if_pos (by omega : sk.H < h)]
      simp only [List.length_append, List.length_singleton]
      omega
    rw [hnone]

theorem level_gap_no_error_witness :
    step 3 (initCore ℕ 2 8) [(9, 3)] (fun _ => false) 0 = none :=
  level_gap_no_error 3 (initCore ℕ 2 8) 9 3 [] (fun _ => false) 0
    (by decide) (by decide)

/-- C7: on the compactor test scenario (`k = 2, n = 8`, insert `0..7`, set
`C = 1`, insert `8`) the triggered compaction uses
`sections_to_compact = 2`, `elements_to_compact = 4`, split point `S = 4`,
and for either coin outcome the buffer ends with exactly 5 elements while
exactly 2 elements are promoted; in general, after the compaction block and
before the final append the buffer length equals
`max_buffer_size - elements_to_compact`. -/
theorem forced_compaction (b coin : Bool) (c c' : Compactor ℕ) (out : List ℕ)
    (hfull : c.buffer.length = c.max_buffer_size)
    (hcomp : c.compact coin = some (c', out)) :
    ((Compactor.runInserts (Compactor.init ℕ 2 8 0) (List.range 8)
        (fun _ => false) 0).bind
        (fun p => ({ p.1 with C := 1 }).insert (fun _ => b) 0 8)).map
        (fun q => (q.1.buffer.length, q.2.1.length)) = some (5, 2)
    ∧ trailingOnes 1 + 1 = 2
    ∧ elementsToCompact { Compactor.init ℕ 2 8 0 with C := 1 } = 4
    ∧ (Compactor.init ℕ 2 8 0).max_buffer_size
        - elementsToCompact { Compactor.init ℕ 2 8 0 with C := 1 } = 4
    ∧ c'.buffer.length = c.max_buffer_size - elementsToCompact c := by
  refine ⟨?_, by decide, by decide, by decide,
    (Compactor.compact_spec c coin c' out hfull hcomp).2.2.2.2.2.2.1⟩
  cases b <;> rfl

theorem forced_compaction_witness :
    ({ n := 8, k := 2, max_buffer_size := 8, C := 2, h := 0,
        buffer := [0, 1, 2, 3] } : Compactor ℕ).buffer.length
      = ({ n := 8, k := 2, max_buffer_size := 8, C := 1, h := 0,
            buffer := [0, 1, 2, 3, 4, 5, 6, 7] } : Compactor ℕ).max_buffer_size
        - elementsToCompact
            { n := 8, k := 2, max_buffer_size := 8, C := 1, h := 0,
              buffer := [0, 1, 2, 3, 4, 5, 6, 7] } :=
  (forced_compaction true true
    { n := 8, k := 2, max_buffer_size := 8, C := 1, h := 0,
      buffer := [0, 1, 2, 3, 4, 5, 6, 7] }
    { n := 8, k := 2, max_buffer_size := 8, C := 2, h := 0,
      buffer := [0, 1, 2, 3] }
    [4, 6] rfl rfl).2.2.2.2

/-- C8: before Close, any sequence of Insert calls leaves the query-facing
state untouched: `weighted_elements` is empty, `total_weight = 0`,
EstimateRank returns 0 and Quantiles returns the empty list (its loop body,
including the division by `total_weight`, never runs); no error is
raised. -/
theorem query_before_close {T : Type} [LinearOrder T] (k n fuel idx0 : Nat)
    (calls : List (T × Nat)) (coins : Nat → Bool) (r : SketchCore T × Nat)
    (x : T) (q : Nat)
    (hrun : step fuel (initCore T k n) calls coins idx0 = some r) :
    (mkSketch r.1).weightedElements = []
    ∧ (mkSketch r.1).totalWeight = 0
    ∧ (mkSketch r.1).estimateRank x = 0
    ∧ (mkSketch r.1).quantiles q = [] :=
  ⟨rfl, rfl, rfl, rfl⟩

theorem query_before_close_witness :
    (mkSketch ((step 2 (initCore ℕ 2 8) [(1, 0)] (fun _ => false) 0).getD
        (initCore ℕ 2 8, 0)).1).weightedElements = []
    ∧ (mkSketch ((step 2 (initCore ℕ 2 8) [(1, 0)] (fun _ => false) 0).getD
        (initCore ℕ 2 8, 0)).1).totalWeight = 0
    ∧ (mkSketch ((step 2 (initCore ℕ 2 8) [(1, 0)] (fun _ => false) 0).getD
        (initCore ℕ 2 8, 0)).1).estimateRank 5 = 0
    ∧ (mkSketch ((step 2 (initCore ℕ 2 8) [(1, 0)] (fun _ => false) 0).getD
        (initCore ℕ 2 8, 0)).1).quantiles 3 = [] :=
  query_before_close 2 8 2 0 [(1, 0)] (fun _ => false) _ 5 3 rfl

/-- C9: evaluating the code on the RankAndQuantiles test input
(`k = 4, n = 100`, insert `1..100`, Close) with an explicit coin outcome
sequence: `Quantiles(2)` returns TWO boundary points, not one — the second
is emitted at the last element because there `cum / total = 1 ≥ 2/2`.  (The
first boundary's item, 50, does lie in `[35, 65]`; the repository's own
test asserts `quantiles.size() == 1` and is contradicted by the code.) -/
theorem quantiles_two_boundaries :
    ((step 200 (initCore ℕ 4 100)
        (((List.range 100).map Nat.succ).map (fun x => (x, 0)))
        (fun _ => false) 0).map
      (fun r => ((Sketch.close (mkSketch r.1)).quantiles 2).map
        (fun b => (b.1, b.2.1)))) = some [(1, 50), (2, 100)]
    ∧ ((step 200 (initCore ℕ 4 100)
        (((List.range 100).map Nat.succ).map (fun x => (x, 0)))
        (fun _ => false) 0).map
      (fun r => (Sketch.close (mkSketch r.1)).totalWeight)) = some 100 :=
  ⟨by decide, by decide⟩

/-- C10: whenever a successful Insert triggers a compaction (buffer full,
`elements_to_compact ≤ max_buffer_size`) on a compactor whose `k` is even,
the promoted sequence contains exactly `elements_to_compact / 2` items,
for every coin outcome. -/
theorem promoted_count {T : Type} [LinearOrder T] (c : Compactor T)
    (coins : Nat → Bool) (idx : Nat) (x : T) (c' : Compactor T) (out : List T)
    (idx' : Nat)
    (hke : c.k % 2 = 0) (hfull : c.buffer.length = c.max_buffer_size)
    (hcap : elementsToCompact c ≤ c.max_buffer_size)
    (hins : c.insert coins idx x = some (c', out, idx')) :
    out.length = elementsToCompact c / 2 := by
  obtain ⟨-, -, -, -, hfullsp, -⟩ :=
    Compactor.insert_spec c coins idx x c' out idx' hins
  have h2 := (hfullsp hfull).2.2.2 hke
  have heven := elementsToCompact_even c hke
  omega

theorem promoted_count_witness :
    ([6] : List ℕ).length
      = elementsToCompact
          ({ n := 8, k := 2, max_buffer_size := 8, C := 0, h := 0,
             buffer := [0, 1, 2, 3, 4, 5, 6, 7] } : Compactor ℕ) / 2 :=
  promoted_count
    { n := 8, k := 2, max_buffer_size := 8, C := 0, h := 0,
      buffer := [0, 1, 2, 3, 4, 5, 6, 7] }
    (fun _ => true) 0 9
    { n := 8, k := 2, max_buffer_size := 8, C := 1, h := 0,
      buffer := [0, 1, 2, 3, 4, 5, 9] }
    [6] 1 (by decide) (by decide) (by decide) rfl

end StreamingQuantiles
